import Mathlib

/-!
Verification of the sentinel-based doubly linked positional list from
`08. Linked Lists/_DoublyLinkedListBase.py` and
`08. Linked Lists/PositionalList.py`.

The Python implementation stores nodes as heap objects linked by object
references, where a cleared (`None`) next-link marks a deprecated node.
We model the object heap explicitly: node identities are natural numbers,
the heap is an association list from identities to node records, and a
node's `prev` / `next` fields are `Option NodeId` (with `none` playing the
role of Python's `None`).  A `PositionalList` instance owns a heap, the
identities of its two sentinel nodes, a stored size, and a fresh-identity
counter; the list's own identity (`listId`) models Python object identity
for the `p.container is not self` check.  Elements are integers.

Positions issued by the list always reference identities allocated in the
list's heap; heap lookup of an unallocated identity defaults to a dead
node (all fields `none`), a state no Python object reachable from the
public API is ever in.
-/

/-- Node identity (models Python object identity of `_Node` instances). -/
abbrev NodeId := Nat

/-- `_DoublyLinkedListBase._Node`: an element slot and the two links.
Sentinels store no element; `none` links model Python `None`. -/
structure Node where
  element : Option Int
  prev : Option NodeId
  next : Option NodeId
deriving DecidableEq, Repr

/-- The node produced by `_Node.invalidate`: all three fields cleared. -/
def deadNode : Node := ⟨none, none, none⟩

/-- The object heap: allocated node identities with their current state. -/
abbrev Heap := List (NodeId × Node)

/-- Look up the node currently stored at identity `i`. -/
def findNode : Heap → NodeId → Option Node
  | [], _ => none
  | (k, v) :: rest, i => if k = i then some v else findNode rest i

/-- Dereference identity `i`; unallocated identities (unreachable through
the public API) default to a dead node. -/
def getNode (h : Heap) (i : NodeId) : Node := (findNode h i).getD deadNode

/-- Overwrite the node stored at identity `i` (models a field assignment
on the Python object with that identity). -/
def setNode : Heap → NodeId → Node → Heap
  | [], _, _ => []
  | (k, v) :: rest, i, n => if k = i then (k, n) :: rest else (k, v) :: setNode rest i n

/-- The allocated identities. -/
def heapKeys (h : Heap) : List NodeId := h.map Prod.fst

/-- `PositionalList` (with its `_DoublyLinkedListBase` state flattened in):
the list's own identity, its object heap, the two sentinel identities,
the fresh-identity counter, and `_size`. -/
structure PositionalList where
  listId : Nat
  heap : Heap
  header : NodeId
  trailer : NodeId
  nextId : Nat
  size : Nat
deriving DecidableEq, Repr

/-- `PositionalList.Position`: the container's identity and the node's
identity (`_container` and `_node`). -/
structure Position where
  container : Nat
  node : NodeId
deriving DecidableEq, Repr

/-- An argument passed where a Position is expected.  Python is
dynamically typed, so callers can pass a non-Position value (for example
`None`); `nonPosition` models every such value. -/
inductive Arg where
  | nonPosition : Arg
  | position : Position → Arg
deriving DecidableEq, Repr

/-- The Python exception classes raised by this code. -/
inductive ExnClass where
  | typeError
  | valueError
  | emptyError
  | attributeError
deriving DecidableEq, Repr

/-- A raised exception: its class and its message. -/
structure Exn where
  cls : ExnClass
  msg : String
deriving DecidableEq, Repr

/-- `TypeError('p must be proper Position type')` from `_validate`. -/
def wrongPositionTypeErr : Exn := ⟨ExnClass.typeError, "p must be proper Position type"⟩

/-- `ValueError('p does not belong to this container')` from `_validate`. -/
def invalidPositionErr : Exn := ⟨ExnClass.valueError, "p does not belong to this container"⟩

/-- `ValueError('p is no longer valid')` from `_validate`. -/
def stalePositionErr : Exn := ⟨ExnClass.valueError, "p is no longer valid"⟩

/-- The `Empty` exception raised by `_delete_node` on an empty list. -/
def emptyErr : Exn := ⟨ExnClass.emptyError, "Cannot perform operation on empty list"⟩

/-- The `AttributeError` Python would raise on dereferencing a `None`
link; unreachable through the validated public API. -/
def noneLinkErr : Exn := ⟨ExnClass.attributeError, "NoneType object has no attribute"⟩

namespace PositionalList

/-- `__init__`: two fresh sentinel nodes, header's next and trailer's
prev wired to each other, size zero. -/
def empty (lid : Nat) : PositionalList :=
  { listId := lid
    heap := [(0, ⟨none, none, some 1⟩), (1, ⟨none, some 0, none⟩)]
    header := 0
    trailer := 1
    nextId := 2
    size := 0 }

/-- `is_empty`. -/
def isEmpty (L : PositionalList) : Bool := L.size = 0

/-- `_validate`: type check, container-identity check, then the
cleared-next-link staleness check; returns the node's identity. -/
def validate (L : PositionalList) (a : Arg) : Except Exn NodeId :=
  match a with
  | Arg.nonPosition => Except.error wrongPositionTypeErr
  | Arg.position p =>
      if p.container = L.listId then
        if (getNode L.heap p.node).next = none then Except.error stalePositionErr
        else Except.ok p.node
      else Except.error invalidPositionErr

/-- `_make_position`: `none` for either sentinel, else a Position
wrapping the node. -/
def makePosition (L : PositionalList) (i : NodeId) : Option Position :=
  if i = L.header ∨ i = L.trailer then none
  else some ⟨L.listId, i⟩

/-- `_make_position` applied to the content of a link field.  A `none`
link never reaches `_make_position` from the public API (sentinel links
are always set and validated nodes are live), so that case yields no
position. -/
def makePositionOpt (L : PositionalList) : Option NodeId → Option Position
  | none => none
  | some i => L.makePosition i

/-- `first`: wrap `self._header._next`. -/
def first (L : PositionalList) : Option Position :=
  L.makePositionOpt (getNode L.heap L.header).next

/-- `last`: wrap `self._trailer._prev`. -/
def last (L : PositionalList) : Option Position :=
  L.makePositionOpt (getNode L.heap L.trailer).prev

/-- `before`: validate, then wrap `node._prev`. -/
def before (L : PositionalList) (a : Arg) : Except Exn (Option Position) :=
  match L.validate a with
  | Except.error e => Except.error e
  | Except.ok nid => Except.ok (L.makePositionOpt (getNode L.heap nid).prev)

/-- `after`: validate, then wrap `node._next`. -/
def after (L : PositionalList) (a : Arg) : Except Exn (Option Position) :=
  match L.validate a with
  | Except.error e => Except.error e
  | Except.ok nid => Except.ok (L.makePositionOpt (getNode L.heap nid).next)

/-- `_DoublyLinkedListBase._insert_between`: allocate a fresh node with
the given element and links, point `predecessor._next` and
`successor._prev` at it, increment `_size`; returns the new state and the
new node's identity. -/
def insertBetween (L : PositionalList) (e : Int) (pred succ : NodeId) :
    PositionalList × NodeId :=
  let newest := L.nextId
  let h0 : Heap := (newest, ⟨some e, some pred, some succ⟩) :: L.heap
  let h1 := setNode h0 pred { getNode h0 pred with next := some newest }
  let h2 := setNode h1 succ { getNode h1 succ with prev := some newest }
  ({ L with heap := h2, nextId := newest + 1, size := L.size + 1 }, newest)

/-- `PositionalList._insert_between`: the base primitive followed by
`_make_position` on the new node. -/
def insertBetweenPos (L : PositionalList) (e : Int) (pred succ : NodeId) :
    PositionalList × Option Position :=
  let r := L.insertBetween e pred succ
  (r.1, r.1.makePosition r.2)

/-- `add_first`: insert between the header and `self._header._next`.
The header's next link is always set in states reachable through the
public API. -/
def addFirst (L : PositionalList) (e : Int) : PositionalList × Option Position :=
  match (getNode L.heap L.header).next with
  | some succ => L.insertBetweenPos e L.header succ
  | none => (L, none)

/-- `add_last`: insert between `self._trailer._prev` and the trailer.
The trailer's prev link is always set in states reachable through the
public API. -/
def addLast (L : PositionalList) (e : Int) : PositionalList × Option Position :=
  match (getNode L.heap L.trailer).prev with
  | some pred => L.insertBetweenPos e pred L.trailer
  | none => (L, none)

/-- `add_before`: validate, then insert between `original._prev` and the
node.  A `none` prev link would make Python fail on `None._next = ...`. -/
def addBefore (L : PositionalList) (a : Arg) (e : Int) :
    PositionalList × Except Exn (Option Position) :=
  match L.validate a with
  | Except.error err => (L, Except.error err)
  | Except.ok nid =>
      match (getNode L.heap nid).prev with
      | some pred =>
          let r := L.insertBetweenPos e pred nid
          (r.1, Except.ok r.2)
      | none => (L, Except.error noneLinkErr)

/-- `add_after`: validate, then insert between the node and
`original._next`. -/
def addAfter (L : PositionalList) (a : Arg) (e : Int) :
    PositionalList × Except Exn (Option Position) :=
  match L.validate a with
  | Except.error err => (L, Except.error err)
  | Except.ok nid =>
      match (getNode L.heap nid).next with
      | some succ =>
          let r := L.insertBetweenPos e nid succ
          (r.1, Except.ok r.2)
      | none => (L, Except.error noneLinkErr)

/-- `_DoublyLinkedListBase._delete_node`: the defensive `Empty` check,
then relink `predecessor._next` and `successor._prev` to each other,
decrement `_size`, read the element and invalidate the node.  A `none`
link on the target (unreachable from the validated public API) would make
Python fail on `None._next = ...`. -/
def deleteNode (L : PositionalList) (nid : NodeId) :
    PositionalList × Except Exn (Option Int) :=
  if L.size = 0 then (L, Except.error emptyErr)
  else
    let node := getNode L.heap nid
    match node.prev, node.next with
    | some pred, some succ =>
        let h1 := setNode L.heap pred { getNode L.heap pred with next := some succ }
        let h2 := setNode h1 succ { getNode h1 succ with prev := some pred }
        let h3 := setNode h2 nid deadNode
        ({ L with heap := h3, size := L.size - 1 }, Except.ok node.element)
    | _, _ => (L, Except.error noneLinkErr)

/-- `delete`: validate, then remove via the base primitive. -/
def delete (L : PositionalList) (a : Arg) :
    PositionalList × Except Exn (Option Int) :=
  match L.validate a with
  | Except.error e => (L, Except.error e)
  | Except.ok nid => L.deleteNode nid

/-- `replace`: validate, read the old element, overwrite the element slot
in place, return the old element. -/
def replace (L : PositionalList) (a : Arg) (e : Int) :
    PositionalList × Except Exn (Option Int) :=
  match L.validate a with
  | Except.error err => (L, Except.error err)
  | Except.ok nid =>
      let node := getNode L.heap nid
      ({ L with heap := setNode L.heap nid { node with element := some e } },
       Except.ok node.element)

/-- `Position.element()`: read the node's element slot, with no
validation of any kind.  (The node's storage lives in the owning list's
heap, so the read takes the list state.) -/
def posElement (L : PositionalList) (p : Position) : Option Int :=
  (getNode L.heap p.node).element

end PositionalList

/-! ### Heap lemmas -/

theorem heapKeys_cons (k : NodeId) (v : Node) (rest : Heap) :
    heapKeys ((k, v) :: rest) = k :: heapKeys rest := rfl

theorem findNode_eq_none_iff (h : Heap) (i : NodeId) :
    findNode h i = none ↔ i ∉ heapKeys h := by
  induction h with
  | nil => simp [findNode, heapKeys]
  | cons kv rest ih =>
      obtain ⟨k, v⟩ := kv
      by_cases hk : k = i
      · subst hk
        simp [findNode, heapKeys_cons]
      · have hik : ¬ (i = k) := fun hc => hk hc.symm
        simp [findNode, hk, heapKeys_cons, hik, ih]

theorem mem_heapKeys_of_findNode {h : Heap} {i : NodeId} {n : Node}
    (hf : findNode h i = some n) : i ∈ heapKeys h := by
  by_contra hmem
  rw [← findNode_eq_none_iff] at hmem
  rw [hmem] at hf
  exact Option.noConfusion hf

theorem findNode_setNode_self {h : Heap} {i : NodeId} (n : Node)
    (hm : i ∈ heapKeys h) : findNode (setNode h i n) i = some n := by
  induction h with
  | nil => simp [heapKeys] at hm
  | cons kv rest ih =>
      obtain ⟨k, v⟩ := kv
      by_cases hk : k = i
      · subst hk
        simp [setNode, findNode]
      · rw [heapKeys_cons, List.mem_cons] at hm
        rcases hm with hm | hm
        · exact absurd hm.symm hk
        · simp [setNode, findNode, hk, ih hm]

theorem findNode_setNode_ne {h : Heap} {i j : NodeId} (n : Node)
    (hne : j ≠ i) : findNode (setNode h i n) j = findNode h j := by
  induction h with
  | nil => simp [setNode]
  | cons kv rest ih =>
      obtain ⟨k, v⟩ := kv
      by_cases hk : k = i
      · subst hk
        have hkj : ¬ (k = j) := fun hc => hne hc.symm
        simp [setNode, findNode, hkj]
      · by_cases hkj : k = j
        · subst hkj
          simp [setNode, findNode, hk]
        · simp [setNode, findNode, hk, hkj, ih]

theorem heapKeys_setNode (h : Heap) (i : NodeId) (n : Node) :
    heapKeys (setNode h i n) = heapKeys h := by
  induction h with
  | nil => simp [setNode]
  | cons kv rest ih =>
      obtain ⟨k, v⟩ := kv
      by_cases hk : k = i
      · subst hk
        simp [setNode, heapKeys_cons]
      · simp [setNode, heapKeys_cons, hk]
        exact ih

theorem getNode_setNode_self {h : Heap} {i : NodeId} (n : Node)
    (hm : i ∈ heapKeys h) : getNode (setNode h i n) i = n := by
  simp [getNode, findNode_setNode_self n hm]

theorem getNode_setNode_ne {h : Heap} {i j : NodeId} (n : Node)
    (hne : j ≠ i) : getNode (setNode h i n) j = getNode h j := by
  simp [getNode, findNode_setNode_ne n hne]

theorem findNode_cons_ne {h : Heap} {k j : NodeId} (n : Node)
    (hne : j ≠ k) : findNode ((k, n) :: h) j = findNode h j := by
  have hkj : ¬ (k = j) := fun hc => hne hc.symm
  simp [findNode, hkj]

theorem getNode_cons_ne {h : Heap} {k j : NodeId} (n : Node)
    (hne : j ≠ k) : getNode ((k, n) :: h) j = getNode h j := by
  simp [getNode, findNode_cons_ne n hne]

theorem getNode_cons_self (h : Heap) (k : NodeId) (n : Node) :
    getNode ((k, n) :: h) k = n := by
  simp [getNode, findNode]

/-! ### The sentinel-bounded chain -/

/-- `linkedB h l` holds when consecutive identities in `l` are doubly
linked in `h`: each node's next points at its successor in `l` and each
successor's prev points back. -/
def linkedB (h : Heap) : List NodeId → Bool
  | a :: b :: rest =>
      ((getNode h a).next == some b) && ((getNode h b).prev == some a) && linkedB h (b :: rest)
  | _ => true

theorem linkedB_nil (h : Heap) : linkedB h [] = true := rfl

theorem linkedB_single (h : Heap) (a : NodeId) : linkedB h [a] = true := rfl

theorem linkedB_cons₂ (h : Heap) (a b : NodeId) (rest : List NodeId) :
    linkedB h (a :: b :: rest) =
      (((getNode h a).next == some b) && ((getNode h b).prev == some a) &&
        linkedB h (b :: rest)) := rfl

theorem linkedB_head {h : Heap} {a b : NodeId} {rest : List NodeId}
    (hl : linkedB h (a :: b :: rest) = true) :
    (getNode h a).next = some b ∧ (getNode h b).prev = some a ∧
      linkedB h (b :: rest) = true := by
  rw [linkedB_cons₂] at hl
  simp only [Bool.and_eq_true, beq_iff_eq] at hl
  exact ⟨hl.1.1, hl.1.2, hl.2⟩

/-- `linkedB` only inspects the next links of all-but-the-last node and
the prev links of all-but-the-first node. -/
theorem linkedB_congr2 (g h : Heap) :
    ∀ l : List NodeId,
      (∀ i ∈ l.dropLast, (getNode g i).next = (getNode h i).next) →
      (∀ i ∈ l.tail, (getNode g i).prev = (getNode h i).prev) →
      linkedB g l = linkedB h l := by
  intro l
  induction l with
  | nil => intro _ _; rfl
  | cons a t ih =>
      intro hn hp
      cases t with
      | nil => rfl
      | cons b rest =>
          have ha : (getNode g a).next = (getNode h a).next :=
            hn a (by rw [List.dropLast_cons₂]; exact List.mem_cons_self a _)
          have hb : (getNode g b).prev = (getNode h b).prev :=
            hp b (List.mem_cons_self b rest)
          have ht : linkedB g (b :: rest) = linkedB h (b :: rest) :=
            ih (fun i hi => hn i (by rw [List.dropLast_cons₂]; exact List.mem_cons_of_mem a hi))
               (fun i hi => hp i (List.mem_cons_of_mem b hi))
          rw [linkedB_cons₂, linkedB_cons₂, ha, hb, ht]

/-- Splitting a chain at an interior node. -/
theorem linkedB_split (h : Heap) (a : NodeId) :
    ∀ xs ys : List NodeId,
      linkedB h (xs ++ a :: ys) = (linkedB h (xs ++ [a]) && linkedB h (a :: ys)) := by
  intro xs
  induction xs with
  | nil => intro ys; simp [linkedB_single]
  | cons x t ih =>
      intro ys
      cases t with
      | nil =>
          simp only [List.cons_append, List.nil_append]
          rw [linkedB_cons₂, linkedB_cons₂, linkedB_single]
          simp [Bool.and_assoc]
      | cons y t2 =>
          simp only [List.cons_append]
          rw [linkedB_cons₂]
          have hih := ih ys
          simp only [List.cons_append] at hih
          rw [hih]
          rw [linkedB_cons₂]
          simp [Bool.and_assoc]

/-! ### The well-formedness invariant -/

/-- Well-formedness of a list state with `ids` the identities of the live
nodes in order: the header, the live nodes and the trailer are pairwise
distinct allocated identities below the fresh counter, the heap's keys
are distinct and below the fresh counter, the stored size is the number
of live nodes, and the full sentinel-to-sentinel chain is doubly
linked. -/
structure WF (L : PositionalList) (ids : List NodeId) : Prop where
  nodesNodup : (L.header :: ids ++ [L.trailer]).Nodup
  nodesLt : ∀ i ∈ L.header :: ids ++ [L.trailer], i < L.nextId
  keysNodup : (heapKeys L.heap).Nodup
  keysLt : ∀ k ∈ heapKeys L.heap, k < L.nextId
  memKeys : ∀ i ∈ L.header :: ids ++ [L.trailer], i ∈ heapKeys L.heap
  sizeEq : L.size = ids.length
  chain : linkedB L.heap (L.header :: ids ++ [L.trailer]) = true

theorem wf_empty (lid : Nat) : WF (PositionalList.empty lid) [] := by
  refine ⟨?_, ?_, ?_, ?_, ?_, ?_, ?_⟩ <;>
    simp [PositionalList.empty, heapKeys, linkedB, getNode, findNode]

theorem linkedB_pair {h : Heap} {a b : NodeId}
    (h1 : (getNode h a).next = some b) (h2 : (getNode h b).prev = some a) :
    linkedB h [a, b] = true := by
  rw [linkedB_cons₂]
  simp [h1, h2, linkedB_single]

theorem linkedB_join {h : Heap} {a : NodeId} {xs ys : List NodeId}
    (h1 : linkedB h (xs ++ [a]) = true) (h2 : linkedB h (a :: ys) = true) :
    linkedB h (xs ++ a :: ys) = true := by
  rw [linkedB_split]
  simp [h1, h2]

theorem linkedB_split_left {h : Heap} {a : NodeId} {xs ys : List NodeId}
    (hl : linkedB h (xs ++ a :: ys) = true) : linkedB h (xs ++ [a]) = true := by
  rw [linkedB_split] at hl
  exact (Bool.and_eq_true .. ▸ hl).1

theorem linkedB_split_right {h : Heap} {a : NodeId} {xs ys : List NodeId}
    (hl : linkedB h (xs ++ a :: ys) = true) : linkedB h (a :: ys) = true := by
  rw [linkedB_split] at hl
  exact (Bool.and_eq_true .. ▸ hl).2

/-- Every nonempty list decomposes as an initial part plus a last item. -/
theorem cons_eq_concat {α : Type} (a : α) (l : List α) :
    ∃ P0 pr, a :: l = P0 ++ [pr] := by
  rcases List.eq_nil_or_concat (a :: l) with hc | ⟨P0, pr, hc⟩
  · exact absurd hc (List.cons_ne_nil a l)
  · exact ⟨P0, pr, by simpa [List.concat_eq_append] using hc⟩

/-- Every list ending with a fixed item decomposes as head plus rest. -/
theorem append_single_eq_cons {α : Type} (l : List α) (a : α) :
    ∃ su S, l ++ [a] = su :: S := by
  cases l with
  | nil => exact ⟨a, [], rfl⟩
  | cons x t => exact ⟨x, t ++ [a], rfl⟩

/-! ### Consequences of well-formedness -/

theorem wf_header_ne_trailer {L : PositionalList} {ids : List NodeId}
    (hw : WF L ids) : L.header ≠ L.trailer := by
  have hnd := hw.nodesNodup
  rw [List.cons_append, List.nodup_cons] at hnd
  intro hc
  exact hnd.1 (List.mem_append_right ids (hc ▸ List.mem_singleton_self _))

theorem wf_live_ne_sentinels {L : PositionalList} {ids : List NodeId}
    (hw : WF L ids) {i : NodeId} (hm : i ∈ ids) :
    i ≠ L.header ∧ i ≠ L.trailer := by
  have hnd := hw.nodesNodup
  rw [List.cons_append, List.nodup_cons] at hnd
  constructor
  · intro hc
    exact hnd.1 (List.mem_append_left [L.trailer] (hc ▸ hm))
  · intro hc
    have hdisj := (List.nodup_append.mp hnd.2).2.2
    exact hdisj hm (hc ▸ List.mem_singleton_self _)

theorem wf_live_mem_keys {L : PositionalList} {ids : List NodeId}
    (hw : WF L ids) {i : NodeId} (hm : i ∈ ids) : i ∈ heapKeys L.heap :=
  hw.memKeys i (List.mem_cons_of_mem _ (List.mem_append_left _ hm))

theorem wf_header_mem_keys {L : PositionalList} {ids : List NodeId}
    (hw : WF L ids) : L.header ∈ heapKeys L.heap :=
  hw.memKeys L.header (List.mem_cons_self _ _)

theorem wf_trailer_mem_keys {L : PositionalList} {ids : List NodeId}
    (hw : WF L ids) : L.trailer ∈ heapKeys L.heap :=
  hw.memKeys L.trailer (List.mem_cons_of_mem _ (List.mem_append_right _ (List.mem_singleton_self _)))

/-- In a well-formed empty list the header's next link is the trailer;
in a nonempty one it is the first live node. -/
theorem wf_header_next_nil {L : PositionalList} (hw : WF L []) :
    (getNode L.heap L.header).next = some L.trailer := by
  have hc := hw.chain
  simp only [List.nil_append] at hc
  exact (linkedB_head hc).1

theorem wf_header_next_cons {L : PositionalList} {i : NodeId} {t : List NodeId}
    (hw : WF L (i :: t)) : (getNode L.heap L.header).next = some i := by
  have hc := hw.chain
  simp only [List.cons_append] at hc
  exact (linkedB_head hc).1

theorem wf_trailer_prev_nil {L : PositionalList} (hw : WF L []) :
    (getNode L.heap L.trailer).prev = some L.header := by
  have hc := hw.chain
  simp only [List.nil_append] at hc
  exact (linkedB_head hc).2.1

theorem wf_trailer_prev_concat {L : PositionalList} {S : List NodeId} {p : NodeId}
    (hw : WF L (S ++ [p])) : (getNode L.heap L.trailer).prev = some p ∧
      (getNode L.heap p).next = some L.trailer := by
  have hc := hw.chain
  have hre : L.header :: (S ++ [p]) ++ [L.trailer] =
      (L.header :: S) ++ p :: [L.trailer] := by simp
  rw [hre] at hc
  have hr := linkedB_split_right hc
  exact ⟨(linkedB_head hr).2.1, (linkedB_head hr).1⟩

/-- `first` and `last` on a well-formed list. -/
theorem wf_first_nil {L : PositionalList} (hw : WF L []) :
    L.first = none := by
  rw [PositionalList.first, wf_header_next_nil hw]
  simp [PositionalList.makePositionOpt, PositionalList.makePosition]

theorem wf_last_nil {L : PositionalList} (hw : WF L []) :
    L.last = none := by
  rw [PositionalList.last, wf_trailer_prev_nil hw]
  simp [PositionalList.makePositionOpt, PositionalList.makePosition]

theorem wf_first_cons {L : PositionalList} {i : NodeId} {t : List NodeId}
    (hw : WF L (i :: t)) : L.first = some ⟨L.listId, i⟩ := by
  rw [PositionalList.first, wf_header_next_cons hw]
  have hne := wf_live_ne_sentinels hw (List.mem_cons_self i t)
  simp [PositionalList.makePositionOpt, PositionalList.makePosition, hne.1, hne.2]

theorem wf_last_concat {L : PositionalList} {S : List NodeId} {p : NodeId}
    (hw : WF L (S ++ [p])) : L.last = some ⟨L.listId, p⟩ := by
  rw [PositionalList.last, (wf_trailer_prev_concat hw).1]
  have hne := wf_live_ne_sentinels hw (List.mem_append_right S (List.mem_singleton_self p))
  simp [PositionalList.makePositionOpt, PositionalList.makePosition, hne.1, hne.2]

/-- A live node's links in a well-formed list: the neighbors adjacent to
it in the sentinel-bounded chain. -/
theorem wf_live_links {L : PositionalList} {l1 l2 : List NodeId} {nid : NodeId}
    (hw : WF L (l1 ++ nid :: l2)) :
    ∃ pr su P0 S,
      L.header :: l1 = P0 ++ [pr] ∧ l2 ++ [L.trailer] = su :: S ∧
      (getNode L.heap pr).next = some nid ∧ (getNode L.heap nid).prev = some pr ∧
      (getNode L.heap nid).next = some su ∧ (getNode L.heap su).prev = some nid ∧
      linkedB L.heap (P0 ++ [pr]) = true ∧ linkedB L.heap (su :: S) = true := by
  obtain ⟨P0, pr, hP⟩ := cons_eq_concat L.header l1
  obtain ⟨su, S, hS⟩ := append_single_eq_cons l2 L.trailer
  have hc := hw.chain
  have hre : L.header :: (l1 ++ nid :: l2) ++ [L.trailer] =
      (P0 ++ [pr]) ++ nid :: (su :: S) := by
    rw [← hS, ← hP]
    simp
  rw [hre] at hc
  have hleft := linkedB_split_left hc
  have hright := linkedB_split_right hc
  have hleft2 : linkedB L.heap (P0 ++ pr :: [nid]) = true := by
    have : (P0 ++ [pr]) ++ [nid] = P0 ++ pr :: [nid] := by simp
    rw [← this]
    exact hleft
  have hmid := linkedB_split_right hleft2
  refine ⟨pr, su, P0, S, hP, hS, (linkedB_head hmid).1, (linkedB_head hmid).2.1,
    (linkedB_head hright).1, (linkedB_head hright).2.1,
    linkedB_split_left hleft2, (linkedB_head hright).2.2⟩

/-- A live node passes `_validate`. -/
theorem wf_validate_live {L : PositionalList} {ids : List NodeId} {nid : NodeId}
    (hw : WF L ids) (hm : nid ∈ ids) :
    L.validate (Arg.position ⟨L.listId, nid⟩) = Except.ok nid := by
  obtain ⟨l1, l2, hsplit⟩ := List.append_of_mem hm
  subst hsplit
  obtain ⟨pr, su, P0, S, _, _, _, _, hnext, _, _, _⟩ := wf_live_links hw
  simp [PositionalList.validate, hnext]

/-! ### Effect of the insertion primitive on a well-linked heap -/

theorem insertBetween_spec {L : PositionalList} {X Y : List NodeId} {pred succ : NodeId}
    (e : Int)
    (hchain : linkedB L.heap (X ++ pred :: succ :: Y) = true)
    (hnd : (X ++ pred :: succ :: Y).Nodup)
    (hmem : ∀ i ∈ X ++ pred :: succ :: Y, i ∈ heapKeys L.heap)
    (hkeyslt : ∀ k ∈ heapKeys L.heap, k < L.nextId) :
    (L.insertBetween e pred succ).2 = L.nextId ∧
    (L.insertBetween e pred succ).1.listId = L.listId ∧
    (L.insertBetween e pred succ).1.header = L.header ∧
    (L.insertBetween e pred succ).1.trailer = L.trailer ∧
    (L.insertBetween e pred succ).1.nextId = L.nextId + 1 ∧
    (L.insertBetween e pred succ).1.size = L.size + 1 ∧
    heapKeys (L.insertBetween e pred succ).1.heap = L.nextId :: heapKeys L.heap ∧
    getNode (L.insertBetween e pred succ).1.heap L.nextId = ⟨some e, some pred, some succ⟩ ∧
    linkedB (L.insertBetween e pred succ).1.heap (X ++ pred :: L.nextId :: succ :: Y) = true := by
  have hpm : pred ∈ X ++ pred :: succ :: Y :=
    List.mem_append_right X (List.mem_cons_self _ _)
  have hsm : succ ∈ X ++ pred :: succ :: Y :=
    List.mem_append_right X (List.mem_cons_of_mem _ (List.mem_cons_self _ _))
  have hpk : pred ∈ heapKeys L.heap := hmem pred hpm
  have hsk : succ ∈ heapKeys L.heap := hmem succ hsm
  have hplt : pred < L.nextId := hkeyslt pred hpk
  have hslt : succ < L.nextId := hkeyslt succ hsk
  have hpnew : pred ≠ L.nextId := Nat.ne_of_lt hplt
  have hsnew : succ ≠ L.nextId := Nat.ne_of_lt hslt
  have hnd2 := List.nodup_append.mp hnd
  have hps : pred ≠ succ := by
    have := (List.nodup_cons.mp hnd2.2.1).1
    intro hc
    exact this (hc ▸ List.mem_cons_self _ _)
  have hXfacts : ∀ j ∈ X, j ≠ pred ∧ j ≠ succ := by
    intro j hj
    have hd := hnd2.2.2 hj
    constructor
    · intro hc; exact hd (hc ▸ List.mem_cons_self _ _)
    · intro hc; exact hd (hc ▸ List.mem_cons_of_mem _ (List.mem_cons_self _ _))
  have hYfacts : ∀ j ∈ Y, j ≠ pred ∧ j ≠ succ := by
    intro j hj
    constructor
    · intro hc
      exact (List.nodup_cons.mp hnd2.2.1).1 (hc ▸ List.mem_cons_of_mem _ hj)
    · intro hc
      exact (List.nodup_cons.mp (List.nodup_cons.mp hnd2.2.1).2).1 (hc ▸ hj)
  -- the three heap states of the primitive
  set newest := L.nextId with hnewdef
  set nodeNew : Node := ⟨some e, some pred, some succ⟩ with hnodeNew
  set h0 : Heap := (newest, nodeNew) :: L.heap with hh0
  set h1 : Heap := setNode h0 pred { getNode h0 pred with next := some newest } with hh1
  set h2 : Heap := setNode h1 succ { getNode h1 succ with prev := some newest } with hh2
  have hres : L.insertBetween e pred succ =
      ({ L with heap := h2, nextId := newest + 1, size := L.size + 1 }, newest) := rfl
  have hkeys0 : heapKeys h0 = newest :: heapKeys L.heap := rfl
  have hkeys2 : heapKeys h2 = newest :: heapKeys L.heap := by
    rw [hh2, heapKeys_setNode, hh1, heapKeys_setNode, hkeys0]
  have hget0 : ∀ j, j ≠ newest → getNode h0 j = getNode L.heap j := by
    intro j hj; exact getNode_cons_ne nodeNew hj
  have hgetP : getNode h2 pred = { getNode L.heap pred with next := some newest } := by
    rw [hh2, getNode_setNode_ne _ hps, hh1,
      getNode_setNode_self _ (by rw [hkeys0]; exact List.mem_cons_of_mem _ hpk),
      hget0 pred hpnew]
  have hgetS : getNode h2 succ = { getNode L.heap succ with prev := some newest } := by
    have hsp : succ ≠ pred := fun hc => hps hc.symm
    rw [hh2, getNode_setNode_self _ (by
        rw [hh1, heapKeys_setNode, hkeys0]
        exact List.mem_cons_of_mem _ hsk),
      hh1, getNode_setNode_ne _ hsp, hget0 succ hsnew]
  have hgetN : getNode h2 newest = nodeNew := by
    have h1n : newest ≠ succ := fun hc => hsnew hc.symm
    have h2n : newest ≠ pred := fun hc => hpnew hc.symm
    rw [hh2, getNode_setNode_ne _ h1n, hh1, getNode_setNode_ne _ h2n, hh0,
      getNode_cons_self]
  have hgetOther : ∀ j, j ≠ pred → j ≠ succ → j ≠ newest → getNode h2 j = getNode L.heap j := by
    intro j hjp hjs hjn
    rw [hh2, getNode_setNode_ne _ hjs, hh1, getNode_setNode_ne _ hjp, hget0 j hjn]
  have hfreshX : ∀ j ∈ X, j ≠ newest := fun j hj =>
    Nat.ne_of_lt (hkeyslt j (hmem j (List.mem_append_left _ hj)))
  have hfreshY : ∀ j ∈ Y, j ≠ newest := fun j hj =>
    Nat.ne_of_lt (hkeyslt j (hmem j (List.mem_append_right _
      (List.mem_cons_of_mem _ (List.mem_cons_of_mem _ hj)))))
  -- the updated chain
  have hXp : linkedB L.heap (X ++ [pred]) = true := linkedB_split_left hchain
  have hpsY : linkedB L.heap (pred :: succ :: Y) = true := linkedB_split_right hchain
  have hsY : linkedB L.heap (succ :: Y) = true := (linkedB_head hpsY).2.2
  have hXp2 : linkedB h2 (X ++ [pred]) = true := by
    rw [linkedB_congr2 h2 L.heap (X ++ [pred]) ?hn ?hp]
    · exact hXp
    case hn =>
      intro j hj
      rw [List.dropLast_concat] at hj
      obtain ⟨hjp, hjs⟩ := hXfacts j hj
      rw [hgetOther j hjp hjs (hfreshX j hj)]
    case hp =>
      intro j hj
      have hj2 := List.mem_of_mem_tail hj
      rcases List.mem_append.mp hj2 with hjX | hjp
      · obtain ⟨hjp, hjs⟩ := hXfacts j hjX
        rw [hgetOther j hjp hjs (hfreshX j hjX)]
      · have hje : j = pred := List.mem_singleton.mp hjp
        subst hje
        rw [hgetP]
  have hsY2 : linkedB h2 (succ :: Y) = true := by
    rw [linkedB_congr2 h2 L.heap (succ :: Y) ?hn ?hp]
    · exact hsY
    case hn =>
      intro j hj
      have hj2 := List.mem_of_mem_dropLast hj
      rcases List.mem_cons.mp hj2 with hje | hjY
      · subst hje
        rw [hgetS]
      · obtain ⟨hjp, hjs⟩ := hYfacts j hjY
        rw [hgetOther j hjp hjs (hfreshY j hjY)]
    case hp =>
      intro j hj
      have hjY : j ∈ Y := hj
      obtain ⟨hjp, hjs⟩ := hYfacts j hjY
      rw [hgetOther j hjp hjs (hfreshY j hjY)]
  have hchain2 : linkedB h2 (X ++ pred :: newest :: succ :: Y) = true := by
    refine linkedB_join hXp2 ?_
    rw [linkedB_cons₂, linkedB_cons₂]
    simp [hgetP, hgetN, hgetS, hnodeNew, hsY2]
  rw [hres]
  exact ⟨rfl, rfl, rfl, rfl, rfl, rfl, hkeys2, hgetN, hchain2⟩

/-! ### `add_first` preserves well-formedness -/

theorem wf_addFirst {L : PositionalList} {ids : List NodeId} (hw : WF L ids) (e : Int) :
    (L.addFirst e).2 = some ⟨L.listId, L.nextId⟩ ∧
    WF (L.addFirst e).1 (L.nextId :: ids) ∧
    (L.addFirst e).1.size = L.size + 1 ∧
    (L.addFirst e).1.listId = L.listId ∧
    (L.addFirst e).1.first = some ⟨L.listId, L.nextId⟩ ∧
    PositionalList.posElement (L.addFirst e).1 ⟨L.listId, L.nextId⟩ = some e := by
  obtain ⟨su, R, hSR⟩ := append_single_eq_cons ids L.trailer
  have hC : L.header :: ids ++ [L.trailer] = [] ++ L.header :: su :: R := by
    rw [List.cons_append, hSR, List.nil_append]
  have hchain : linkedB L.heap ([] ++ L.header :: su :: R) = true := by
    rw [← hC]; exact hw.chain
  have hnd : ([] ++ L.header :: su :: R).Nodup := by rw [← hC]; exact hw.nodesNodup
  have hmem : ∀ i ∈ [] ++ L.header :: su :: R, i ∈ heapKeys L.heap := by
    rw [← hC]; exact hw.memKeys
  have hlt : ∀ i ∈ [] ++ L.header :: su :: R, i < L.nextId := by
    rw [← hC]; exact hw.nodesLt
  have hspec := insertBetween_spec e hchain hnd hmem hw.keysLt
  obtain ⟨hsnd, hlid, hhead, htrail, hnxt, hsz, hkeys, hgetN, hchain2⟩ := hspec
  have hhn : (getNode L.heap L.header).next = some su := (linkedB_head hchain).1
  have hstep : L.addFirst e = L.insertBetweenPos e L.header su := by
    rw [PositionalList.addFirst, hhn]
  have hnewh : L.nextId ≠ L.header :=
    Nat.ne_of_gt (hlt L.header (List.mem_cons_self _ _))
  have hnewt : L.nextId ≠ L.trailer := by
    refine Nat.ne_of_gt (hlt L.trailer ?_)
    rw [← hC]
    exact List.mem_cons_of_mem _ (List.mem_append_right _ (List.mem_singleton_self _))
  have hpos : (L.insertBetweenPos e L.header su).2 = some ⟨L.listId, L.nextId⟩ := by
    rw [PositionalList.insertBetweenPos]
    simp only [hsnd, PositionalList.makePosition, hhead, htrail, hlid]
    simp [hnewh, hnewt]
  have hfst : (L.insertBetweenPos e L.header su).1 = (L.insertBetween e L.header su).1 := rfl
  have hnew_notin : L.nextId ∉ L.header :: ids ++ [L.trailer] := by
    intro hc
    exact absurd (hw.nodesLt L.nextId hc) (Nat.lt_irrefl L.nextId)
  have hkeys_lt := hw.keysLt
  have hnew_notin_keys : L.nextId ∉ heapKeys L.heap := by
    intro hc
    exact absurd (hkeys_lt L.nextId hc) (Nat.lt_irrefl L.nextId)
  have hold := hw.nodesNodup
  rw [List.cons_append, List.nodup_cons] at hold
  have hC2 : (L.addFirst e).1.header :: (L.nextId :: ids) ++ [(L.addFirst e).1.trailer] =
      [] ++ L.header :: L.nextId :: su :: R := by
    rw [hstep, hfst, hhead, htrail]
    simp only [List.cons_append, List.nil_append, List.cons.injEq, true_and]
    exact hSR
  refine ⟨by rw [hstep]; exact hpos, ?_, by rw [hstep, hfst]; exact hsz,
    by rw [hstep, hfst]; exact hlid, ?_, ?_⟩
  · refine ⟨?_, ?_, ?_, ?_, ?_, ?_, ?_⟩
    · rw [hC2, List.nil_append, List.nodup_cons]
      constructor
      · intro hc
        rcases List.mem_cons.mp hc with hc1 | hc2
        · exact hnewh hc1.symm
        · rw [← hSR] at hc2
          exact hold.1 hc2
      · rw [List.nodup_cons]
        constructor
        · intro hc
          rw [← hSR] at hc
          exact hnew_notin (List.mem_cons_of_mem _ hc)
        · rw [← hSR]
          exact hold.2
    · intro i hi
      rw [hC2, List.nil_append] at hi
      rw [hstep, hfst, hnxt]
      rcases List.mem_cons.mp hi with hie | hi2
      · subst hie
        exact Nat.lt_succ_of_lt (hlt _ (List.mem_cons_self _ _))
      · rcases List.mem_cons.mp hi2 with hie | hi3
        · subst hie
          exact Nat.lt_succ_self _
        · exact Nat.lt_succ_of_lt (hlt i (List.mem_cons_of_mem _ hi3))
    · rw [hstep, hfst, hkeys, List.nodup_cons]
      exact ⟨hnew_notin_keys, hw.keysNodup⟩
    · intro k hk
      rw [hstep, hfst, hkeys] at hk
      rw [hstep, hfst, hnxt]
      rcases List.mem_cons.mp hk with hke | hk2
      · subst hke; exact Nat.lt_succ_self _
      · exact Nat.lt_succ_of_lt (hkeys_lt k hk2)
    · intro i hi
      rw [hC2, List.nil_append] at hi
      rw [hstep, hfst, hkeys]
      rcases List.mem_cons.mp hi with hie | hi2
      · subst hie
        exact List.mem_cons_of_mem _ (hmem L.header (List.mem_cons_self _ _))
      · rcases List.mem_cons.mp hi2 with hie | hi3
        · subst hie
          exact List.mem_cons_self _ _
        · exact List.mem_cons_of_mem _ (hmem i (List.mem_cons_of_mem _ hi3))
    · rw [hstep, hfst, hsz, hw.sizeEq]
      simp
    · rw [hC2, hstep, hfst]
      exact hchain2
  · rw [hstep, hfst, PositionalList.first, hhead]
    have hgethd : (getNode (L.insertBetween e L.header su).1.heap L.header).next =
        some L.nextId := (linkedB_head (by simpa using hchain2)).1
    rw [hgethd]
    simp only [PositionalList.makePositionOpt, PositionalList.makePosition, hhead, htrail, hlid]
    simp [hnewh, hnewt]
  · rw [hstep, hfst, PositionalList.posElement, hgetN]

/-! ### `add_last` preserves well-formedness -/

theorem mem_insert_middle {α : Type} {X Y : List α} {a b c x : α}
    (hx : x ∈ X ++ a :: b :: c :: Y) : x = b ∨ x ∈ X ++ a :: c :: Y := by
  rcases List.mem_append.mp hx with h | h
  · exact Or.inr (List.mem_append_left _ h)
  · rcases List.mem_cons.mp h with h | h
    · exact Or.inr (List.mem_append_right _ (h ▸ List.mem_cons_self _ _))
    · rcases List.mem_cons.mp h with h | h
      · exact Or.inl h
      · exact Or.inr (List.mem_append_right _ (List.mem_cons_of_mem _ h))

theorem nodup_insert_middle {α : Type} [DecidableEq α] {X Y : List α} {a b c : α}
    (hnd : (X ++ a :: c :: Y).Nodup) (hb : b ∉ X ++ a :: c :: Y) :
    (X ++ a :: b :: c :: Y).Nodup := by
  have h1 := List.nodup_append.mp hnd
  refine List.nodup_append.mpr ⟨h1.1, ?_, ?_⟩
  · rw [List.nodup_cons]
    have ha := List.nodup_cons.mp h1.2.1
    constructor
    · intro hc
      rcases List.mem_cons.mp hc with hc1 | hc2
      · exact hb (hc1 ▸ List.mem_append_right _ (List.mem_cons_self _ _))
      · exact ha.1 hc2
    · rw [List.nodup_cons]
      constructor
      · intro hc
        exact hb (List.mem_append_right _ (List.mem_cons_of_mem _ hc))
      · exact ha.2
  · intro x hxX hx2
    rcases List.mem_cons.mp hx2 with hc | hc
    · exact h1.2.2 hxX (hc ▸ List.mem_cons_self _ _)
    · rcases List.mem_cons.mp hc with hc1 | hc2
      · exact hb (hc1 ▸ List.mem_append_left _ hxX)
      · exact h1.2.2 hxX (List.mem_cons_of_mem _ hc2)

theorem wf_addLast {L : PositionalList} {ids : List NodeId} (hw : WF L ids) (e : Int) :
    (L.addLast e).2 = some ⟨L.listId, L.nextId⟩ ∧
    WF (L.addLast e).1 (ids ++ [L.nextId]) ∧
    (L.addLast e).1.size = L.size + 1 ∧
    (L.addLast e).1.listId = L.listId ∧
    PositionalList.posElement (L.addLast e).1 ⟨L.listId, L.nextId⟩ = some e := by
  obtain ⟨P0, pr, hP⟩ := cons_eq_concat L.header ids
  have hC : L.header :: ids ++ [L.trailer] = P0 ++ pr :: L.trailer :: [] := by
    rw [List.cons_append]
    rw [show L.header :: (ids ++ [L.trailer]) = (L.header :: ids) ++ [L.trailer] from rfl, hP]
    simp
  have hchain : linkedB L.heap (P0 ++ pr :: L.trailer :: []) = true := by
    rw [← hC]; exact hw.chain
  have hnd : (P0 ++ pr :: L.trailer :: []).Nodup := by rw [← hC]; exact hw.nodesNodup
  have hmem : ∀ i ∈ P0 ++ pr :: L.trailer :: [], i ∈ heapKeys L.heap := by
    rw [← hC]; exact hw.memKeys
  have hlt : ∀ i ∈ P0 ++ pr :: L.trailer :: [], i < L.nextId := by
    rw [← hC]; exact hw.nodesLt
  have hspec := insertBetween_spec e hchain hnd hmem hw.keysLt
  obtain ⟨hsnd, hlid, hhead, htrail, hnxt, hsz, hkeys, hgetN, hchain2⟩ := hspec
  have htp : (getNode L.heap L.trailer).prev = some pr :=
    (linkedB_head (linkedB_split_right hchain)).2.1
  have hstep : L.addLast e = L.insertBetweenPos e pr L.trailer := by
    rw [PositionalList.addLast, htp]
  have hnewh : L.nextId ≠ L.header := by
    refine Nat.ne_of_gt (hw.nodesLt L.header (List.mem_cons_self _ _))
  have hnewt : L.nextId ≠ L.trailer := by
    refine Nat.ne_of_gt (hlt L.trailer ?_)
    exact List.mem_append_right _ (List.mem_cons_of_mem _ (List.mem_cons_self _ _))
  have hpos : (L.insertBetweenPos e pr L.trailer).2 = some ⟨L.listId, L.nextId⟩ := by
    rw [PositionalList.insertBetweenPos]
    simp only [hsnd, PositionalList.makePosition, hhead, htrail, hlid]
    simp [hnewh, hnewt]
  have hfst : (L.insertBetweenPos e pr L.trailer).1 = (L.insertBetween e pr L.trailer).1 := rfl
  have hnew_notin : L.nextId ∉ P0 ++ pr :: L.trailer :: [] := by
    intro hc
    exact absurd (hlt L.nextId hc) (Nat.lt_irrefl L.nextId)
  have hnew_notin_keys : L.nextId ∉ heapKeys L.heap := by
    intro hc
    exact absurd (hw.keysLt L.nextId hc) (Nat.lt_irrefl L.nextId)
  have hC2 : (L.addLast e).1.header :: (ids ++ [L.nextId]) ++ [(L.addLast e).1.trailer] =
      P0 ++ pr :: L.nextId :: L.trailer :: [] := by
    rw [hstep, hfst, hhead, htrail]
    rw [show (L.header :: (ids ++ [L.nextId])) ++ [L.trailer] =
      (L.header :: ids) ++ [L.nextId] ++ [L.trailer] from by simp, hP]
    simp
  refine ⟨by rw [hstep]; exact hpos, ?_, by rw [hstep, hfst]; exact hsz,
    by rw [hstep, hfst]; exact hlid, ?_⟩
  · refine ⟨?_, ?_, ?_, ?_, ?_, ?_, ?_⟩
    · rw [hC2]
      exact nodup_insert_middle hnd hnew_notin
    · intro i hi
      rw [hC2] at hi
      rw [hstep, hfst, hnxt]
      rcases mem_insert_middle hi with hie | hi2
      · subst hie
        exact Nat.lt_succ_self _
      · exact Nat.lt_succ_of_lt (hlt i hi2)
    · rw [hstep, hfst, hkeys, List.nodup_cons]
      exact ⟨hnew_notin_keys, hw.keysNodup⟩
    · intro k hk
      rw [hstep, hfst, hkeys] at hk
      rw [hstep, hfst, hnxt]
      rcases List.mem_cons.mp hk with hke | hk2
      · subst hke; exact Nat.lt_succ_self _
      · exact Nat.lt_succ_of_lt (hw.keysLt k hk2)
    · intro i hi
      rw [hC2] at hi
      rw [hstep, hfst, hkeys]
      rcases mem_insert_middle hi with hie | hi2
      · subst hie
        exact List.mem_cons_self _ _
      · exact List.mem_cons_of_mem _ (hmem i hi2)
    · rw [hstep, hfst, hsz, hw.sizeEq]
      simp
    · rw [hC2, hstep, hfst]
      exact hchain2
  · rw [hstep, hfst, PositionalList.posElement, hgetN]

/-! ### `delete` of a live position preserves well-formedness -/

theorem wf_delete {L : PositionalList} {l1 l2 : List NodeId} {nid : NodeId}
    (hw : WF L (l1 ++ nid :: l2)) :
    (L.delete (Arg.position ⟨L.listId, nid⟩)).2 = Except.ok (getNode L.heap nid).element ∧
    WF (L.delete (Arg.position ⟨L.listId, nid⟩)).1 (l1 ++ l2) ∧
    (L.delete (Arg.position ⟨L.listId, nid⟩)).1.size + 1 = L.size ∧
    (L.delete (Arg.position ⟨L.listId, nid⟩)).1.listId = L.listId := by
  have hm : nid ∈ l1 ++ nid :: l2 := List.mem_append_right _ (List.mem_cons_self _ _)
  obtain ⟨pr, su, P0, S, hP, hS, hprnext, hprev, hnext, hsuprev, hPlinked, hSlinked⟩ :=
    wf_live_links hw
  have hval := wf_validate_live hw hm
  have hsz : ¬ (L.size = 0) := by
    rw [hw.sizeEq]
    simp
  have hC : L.header :: (l1 ++ nid :: l2) ++ [L.trailer] = (P0 ++ [pr]) ++ nid :: su :: S := by
    rw [← hP, ← hS]
    simp
  have hndC : ((P0 ++ [pr]) ++ nid :: su :: S).Nodup := by
    rw [← hC]; exact hw.nodesNodup
  have hmemC : ∀ i ∈ (P0 ++ [pr]) ++ nid :: su :: S, i ∈ heapKeys L.heap := by
    rw [← hC]; exact hw.memKeys
  have hltC : ∀ i ∈ (P0 ++ [pr]) ++ nid :: su :: S, i < L.nextId := by
    rw [← hC]; exact hw.nodesLt
  have hndA := List.nodup_append.mp hndC
  have hprC : pr ∈ (P0 ++ [pr]) ++ nid :: su :: S :=
    List.mem_append_left _ (List.mem_append_right _ (List.mem_singleton_self _))
  have hnidC : nid ∈ (P0 ++ [pr]) ++ nid :: su :: S :=
    List.mem_append_right _ (List.mem_cons_self _ _)
  have hsuC : su ∈ (P0 ++ [pr]) ++ nid :: su :: S :=
    List.mem_append_right _ (List.mem_cons_of_mem _ (List.mem_cons_self _ _))
  have hprk : pr ∈ heapKeys L.heap := hmemC pr hprC
  have hnidk : nid ∈ heapKeys L.heap := hmemC nid hnidC
  have hsuk : su ∈ heapKeys L.heap := hmemC su hsuC
  have hprR : pr ∉ nid :: su :: S :=
    hndA.2.2 (List.mem_append_right _ (List.mem_singleton_self _))
  have hprnid : pr ≠ nid := fun hc => hprR (hc ▸ List.mem_cons_self _ _)
  have hprsu : pr ≠ su := fun hc => hprR (hc ▸ List.mem_cons_of_mem _ (List.mem_cons_self _ _))
  have hnidsu : nid ≠ su := by
    have h2 := (List.nodup_cons.mp hndA.2.1).1
    intro hc
    exact h2 (hc ▸ List.mem_cons_self _ _)
  have hnidS : nid ∉ S := by
    have h2 := (List.nodup_cons.mp hndA.2.1).1
    intro hc
    exact h2 (List.mem_cons_of_mem _ hc)
  have hsuS : su ∉ S := (List.nodup_cons.mp (List.nodup_cons.mp hndA.2.1).2).1
  have hP0 : ∀ j ∈ P0, j ≠ pr ∧ j ≠ nid ∧ j ≠ su := by
    intro j hj
    have hjpr : j ≠ pr := by
      have hd := (List.nodup_append.mp hndA.1).2.2 hj
      intro hc
      exact hd (hc ▸ List.mem_singleton_self _)
    have hd := hndA.2.2 (List.mem_append_left _ hj)
    refine ⟨hjpr, ?_, ?_⟩
    · intro hc; exact hd (hc ▸ List.mem_cons_self _ _)
    · intro hc; exact hd (hc ▸ List.mem_cons_of_mem _ (List.mem_cons_self _ _))
  have hSf : ∀ j ∈ S, j ≠ pr ∧ j ≠ nid ∧ j ≠ su := by
    intro j hj
    refine ⟨?_, ?_, ?_⟩
    · intro hc
      exact hprR (hc ▸ List.mem_cons_of_mem _ (List.mem_cons_of_mem _ hj))
    · intro hc; exact hnidS (hc ▸ hj)
    · intro hc; exact hsuS (hc ▸ hj)
  -- the three heap updates of `_delete_node`
  set g1 : Heap := setNode L.heap pr { getNode L.heap pr with next := some su } with hg1
  set g2 : Heap := setNode g1 su { getNode g1 su with prev := some pr } with hg2
  set g3 : Heap := setNode g2 nid deadNode with hg3
  have hstep : L.delete (Arg.position ⟨L.listId, nid⟩) =
      ({ L with heap := g3, size := L.size - 1 }, Except.ok (getNode L.heap nid).element) := by
    simp only [PositionalList.delete, hval, PositionalList.deleteNode, if_neg hsz, hprev, hnext]
  have hkeys1 : heapKeys g1 = heapKeys L.heap := heapKeys_setNode ..
  have hkeys2 : heapKeys g2 = heapKeys L.heap := by rw [hg2, heapKeys_setNode, hkeys1]
  have hkeys3 : heapKeys g3 = heapKeys L.heap := by rw [hg3, heapKeys_setNode, hkeys2]
  have hget1su : getNode g1 su = getNode L.heap su :=
    getNode_setNode_ne _ (fun hc => hprsu hc.symm)
  have hget3pr : getNode g3 pr = { getNode L.heap pr with next := some su } := by
    rw [hg3, getNode_setNode_ne _ hprnid, hg2, getNode_setNode_ne _ hprsu, hg1,
      getNode_setNode_self _ hprk]
  have hget3su : getNode g3 su = { getNode L.heap su with prev := some pr } := by
    have hsn : su ≠ nid := fun hc => hnidsu hc.symm
    rw [hg3, getNode_setNode_ne _ hsn, hg2,
      getNode_setNode_self _ (by rw [hkeys1]; exact hsuk), hget1su]
  have hget3other : ∀ j, j ≠ pr → j ≠ su → j ≠ nid → getNode g3 j = getNode L.heap j := by
    intro j hjp hjs hjn
    rw [hg3, getNode_setNode_ne _ hjn, hg2, getNode_setNode_ne _ hjs, hg1,
      getNode_setNode_ne _ hjp]
  -- the contracted chain is still doubly linked
  have hSlinked2 : linkedB g3 (su :: S) = true := by
    rw [linkedB_congr2 g3 L.heap (su :: S) ?hn ?hp]
    · exact hSlinked
    case hn =>
      intro j hj
      rcases List.mem_cons.mp (List.mem_of_mem_dropLast hj) with hje | hjS
      · subst hje
        rw [hget3su]
      · obtain ⟨hjp, hjn, hjs⟩ := hSf j hjS
        rw [hget3other j hjp hjs hjn]
    case hp =>
      intro j hj
      obtain ⟨hjp, hjn, hjs⟩ := hSf j hj
      rw [hget3other j hjp hjs hjn]
  have hPlinked2 : linkedB g3 (P0 ++ [pr]) = true := by
    rw [linkedB_congr2 g3 L.heap (P0 ++ [pr]) ?hn ?hp]
    · exact hPlinked
    case hn =>
      intro j hj
      rw [List.dropLast_concat] at hj
      obtain ⟨hjpr, hjnid, hjsu⟩ := hP0 j hj
      rw [hget3other j hjpr hjsu hjnid]
    case hp =>
      intro j hj
      rcases List.mem_append.mp (List.mem_of_mem_tail hj) with hjP | hjpr
      · obtain ⟨hjpr, hjnid, hjsu⟩ := hP0 j hjP
        rw [hget3other j hjpr hjsu hjnid]
      · have hje : j = pr := List.mem_singleton.mp hjpr
        subst hje
        rw [hget3pr]
  have hpair : linkedB g3 (pr :: [su]) = true :=
    linkedB_pair (by rw [hget3pr]) (by rw [hget3su])
  have hchain2 : linkedB g3 ((P0 ++ [pr]) ++ su :: S) = true := by
    refine linkedB_join ?_ hSlinked2
    have he : (P0 ++ [pr]) ++ [su] = P0 ++ pr :: [su] := by simp
    rw [he]
    exact linkedB_join hPlinked2 hpair
  have hsub : ((P0 ++ [pr]) ++ su :: S).Sublist ((P0 ++ [pr]) ++ nid :: su :: S) :=
    List.Sublist.append_left (List.sublist_cons_self nid (su :: S)) (P0 ++ [pr])
  have hC2 : L.header :: (l1 ++ l2) ++ [L.trailer] = (P0 ++ [pr]) ++ su :: S := by
    rw [← hP, ← hS]
    simp
  have hWFx : WF ({ L with heap := g3, size := L.size - 1 } : PositionalList) (l1 ++ l2) := by
    refine ⟨?_, ?_, ?_, ?_, ?_, ?_, ?_⟩
    · show (L.header :: (l1 ++ l2) ++ [L.trailer]).Nodup
      rw [hC2]
      exact List.Nodup.sublist hsub hndC
    · show ∀ i ∈ L.header :: (l1 ++ l2) ++ [L.trailer], i < L.nextId
      intro i hi
      rw [hC2] at hi
      exact hltC i (hsub.subset hi)
    · show (heapKeys g3).Nodup
      rw [hkeys3]
      exact hw.keysNodup
    · show ∀ k ∈ heapKeys g3, k < L.nextId
      intro k hk
      rw [hkeys3] at hk
      exact hw.keysLt k hk
    · show ∀ i ∈ L.header :: (l1 ++ l2) ++ [L.trailer], i ∈ heapKeys g3
      intro i hi
      rw [hC2] at hi
      rw [hkeys3]
      exact hmemC i (hsub.subset hi)
    · show L.size - 1 = (l1 ++ l2).length
      have hlen := hw.sizeEq
      rw [List.length_append, List.length_cons] at hlen
      rw [List.length_append]
      omega
    · show linkedB g3 (L.header :: (l1 ++ l2) ++ [L.trailer]) = true
      rw [hC2]
      exact hchain2
  refine ⟨by rw [hstep], ?_, ?_, by rw [hstep]⟩
  · rw [hstep]
    exact hWFx
  · rw [hstep]
    show L.size - 1 + 1 = L.size
    omega

/-! ### Sequences of add and delete operations -/

/-- One public mutating operation of the C7 scenario: `add_first`,
`add_last`, or `delete` of the position issued for a live node. -/
inductive ListOp where
  | addF : Int → ListOp
  | addL : Int → ListOp
  | del : NodeId → ListOp
deriving DecidableEq, Repr

/-- Run a sequence of operations, threading the identities of the live
nodes in order.  A `del` targets a position issued by the list for a
still-live node, as in the spec's lifecycle model; a failing step yields
`none`. -/
def runOps : PositionalList → List NodeId → List ListOp → Option (PositionalList × List NodeId)
  | L, ids, [] => some (L, ids)
  | L, ids, ListOp.addF e :: ops =>
      match (L.addFirst e).2 with
      | some p => runOps (L.addFirst e).1 (p.node :: ids) ops
      | none => none
  | L, ids, ListOp.addL e :: ops =>
      match (L.addLast e).2 with
      | some p => runOps (L.addLast e).1 (ids ++ [p.node]) ops
      | none => none
  | L, ids, ListOp.del nid :: ops =>
      if nid ∈ ids then
        match (L.delete (Arg.position ⟨L.listId, nid⟩)).2 with
        | Except.ok _ => runOps (L.delete (Arg.position ⟨L.listId, nid⟩)).1 (ids.erase nid) ops
        | Except.error _ => none
      else none

def countAdds : List ListOp → Nat
  | [] => 0
  | ListOp.addF _ :: ops => countAdds ops + 1
  | ListOp.addL _ :: ops => countAdds ops + 1
  | ListOp.del _ :: ops => countAdds ops

def countDels : List ListOp → Nat
  | [] => 0
  | ListOp.addF _ :: ops => countDels ops
  | ListOp.addL _ :: ops => countDels ops
  | ListOp.del _ :: ops => countDels ops + 1

theorem wf_ids_nodup {L : PositionalList} {ids : List NodeId} (hw : WF L ids) :
    ids.Nodup := by
  have h := hw.nodesNodup
  rw [List.cons_append, List.nodup_cons] at h
  exact (List.nodup_append.mp h.2).1

theorem runOps_spec : ∀ (ops : List ListOp) (L : PositionalList) (ids : List NodeId)
    (L2 : PositionalList) (ids2 : List NodeId),
    WF L ids → runOps L ids ops = some (L2, ids2) →
    WF L2 ids2 ∧ L2.size + countDels ops = L.size + countAdds ops := by
  intro ops
  induction ops with
  | nil =>
      intro L ids L2 ids2 hw hr
      simp only [runOps, Option.some.injEq, Prod.mk.injEq] at hr
      obtain ⟨h1, h2⟩ := hr
      subst h1
      subst h2
      exact ⟨hw, by simp [countAdds, countDels]⟩
  | cons op rest ih =>
      intro L ids L2 ids2 hw hr
      cases op with
      | addF e =>
          obtain ⟨hsnd, hwf2, hsz2, _, _, _⟩ := wf_addFirst hw e
          simp only [runOps] at hr
          rw [hsnd] at hr
          have hrec := ih (L.addFirst e).1 (L.nextId :: ids) L2 ids2 hwf2 hr
          refine ⟨hrec.1, ?_⟩
          have h2 := hrec.2
          rw [hsz2] at h2
          simp only [countAdds, countDels]
          omega
      | addL e =>
          obtain ⟨hsnd, hwf2, hsz2, _, _⟩ := wf_addLast hw e
          simp only [runOps] at hr
          rw [hsnd] at hr
          have hrec := ih (L.addLast e).1 (ids ++ [L.nextId]) L2 ids2 hwf2 hr
          refine ⟨hrec.1, ?_⟩
          have h2 := hrec.2
          rw [hsz2] at h2
          simp only [countAdds, countDels]
          omega
      | del nid =>
          simp only [runOps] at hr
          by_cases hmem : nid ∈ ids
          · rw [if_pos hmem] at hr
            obtain ⟨l1, l2, hsplit⟩ := List.append_of_mem hmem
            have hw2 : WF L (l1 ++ nid :: l2) := hsplit ▸ hw
            obtain ⟨hok, hwf2, hsz2, _⟩ := wf_delete hw2
            rw [hok] at hr
            have hnodup : ids.Nodup := wf_ids_nodup hw
            have hnl1 : nid ∉ l1 := by
              rw [hsplit] at hnodup
              have hd := (List.nodup_append.mp hnodup).2.2
              intro hc
              exact hd hc (List.mem_cons_self _ _)
            have hera : ids.erase nid = l1 ++ l2 := by
              rw [hsplit, List.erase_append_right _ hnl1, List.erase_cons_head]
            rw [hera] at hr
            have hrec := ih _ _ L2 ids2 hwf2 hr
            refine ⟨hrec.1, ?_⟩
            have h2 := hrec.2
            simp only [countAdds, countDels]
            omega
          · rw [if_neg hmem] at hr
            exact absurd hr (by simp)

/-! ### Validation and error-path lemmas -/

theorem validate_pos_ok {L : PositionalList} {p : Position} {nid : NodeId}
    (h : L.validate (Arg.position p) = Except.ok nid) :
    nid = p.node ∧ p.container = L.listId ∧ (getNode L.heap p.node).next ≠ none := by
  simp only [PositionalList.validate] at h
  by_cases hc : p.container = L.listId
  · rw [if_pos hc] at h
    by_cases hn : (getNode L.heap p.node).next = none
    · rw [if_pos hn] at h
      exact absurd h (by simp)
    · rw [if_neg hn] at h
      rw [Except.ok.injEq] at h
      exact ⟨h.symm, hc, hn⟩
  · rw [if_neg hc] at h
    exact absurd h (by simp)

/-- A validation failure makes every position-consuming operation return
that error with the list state untouched (the exception is raised before
any mutation). -/
theorem ops_error {L : PositionalList} {a : Arg} {err : Exn}
    (h : L.validate a = Except.error err) (x : Int) :
    L.delete a = (L, Except.error err) ∧
    L.replace a x = (L, Except.error err) ∧
    L.before a = Except.error err ∧
    L.after a = Except.error err ∧
    L.addBefore a x = (L, Except.error err) ∧
    L.addAfter a x = (L, Except.error err) := by
  refine ⟨?_, ?_, ?_, ?_, ?_, ?_⟩ <;>
    simp only [PositionalList.delete, PositionalList.replace, PositionalList.before,
      PositionalList.after, PositionalList.addBefore, PositionalList.addAfter, h]

/-- A key whose node has a set next-link is allocated. -/
theorem mem_keys_of_next_ne_none {h : Heap} {i : NodeId}
    (hn : (getNode h i).next ≠ none) : i ∈ heapKeys h := by
  cases hf : findNode h i with
  | none =>
      rw [getNode, hf] at hn
      exact absurd rfl hn
  | some n => exact mem_heapKeys_of_findNode hf

/-- What a successful `delete` did: the argument belonged to this list,
the list's identity and sentinels are unchanged, the returned value is
the node's element, and the node's entry is now fully cleared. -/
theorem delete_ok_facts {L : PositionalList} {p : Position} {L2 : PositionalList}
    {v : Option Int} (h : L.delete (Arg.position p) = (L2, Except.ok v)) :
    p.container = L.listId ∧ L2.listId = L.listId ∧ L2.header = L.header ∧
    L2.trailer = L.trailer ∧ v = (getNode L.heap p.node).element ∧
    getNode L2.heap p.node = deadNode := by
  cases hv : L.validate (Arg.position p) with
  | error e =>
      have hcalc : L.delete (Arg.position p) = (L, Except.error e) := by
        simp only [PositionalList.delete, hv]
      rw [hcalc] at h
      simp at h
  | ok nid =>
      obtain ⟨hnid, hcont, hnext⟩ := validate_pos_ok hv
      subst hnid
      have hkmem : p.node ∈ heapKeys L.heap := mem_keys_of_next_ne_none hnext
      obtain ⟨su, hsu⟩ := Option.ne_none_iff_exists.mp hnext
      have hnext2 : (getNode L.heap p.node).next = some su := hsu.symm
      by_cases hsz : L.size = 0
      · have hcalc : L.delete (Arg.position p) = (L, Except.error emptyErr) := by
          simp only [PositionalList.delete, hv, PositionalList.deleteNode, if_pos hsz]
        rw [hcalc] at h
        simp at h
      · cases hprev : (getNode L.heap p.node).prev with
        | none =>
            have hcalc : L.delete (Arg.position p) = (L, Except.error noneLinkErr) := by
              simp only [PositionalList.delete, hv, PositionalList.deleteNode, if_neg hsz,
                hprev, hnext2]
            rw [hcalc] at h
            simp at h
        | some pr =>
            have hcalc : L.delete (Arg.position p) =
                ({ L with
                    heap := setNode (setNode (setNode L.heap pr
                        { getNode L.heap pr with next := some su }) su
                        { getNode (setNode L.heap pr
                            { getNode L.heap pr with next := some su }) su
                          with prev := some pr }) p.node deadNode,
                    size := L.size - 1 },
                  Except.ok (getNode L.heap p.node).element) := by
              simp only [PositionalList.delete, hv, PositionalList.deleteNode, if_neg hsz,
                hprev, hnext2]
            rw [hcalc] at h
            rw [Prod.mk.injEq] at h
            obtain ⟨h1, h2⟩ := h
            subst h1
            rw [Except.ok.injEq] at h2
            refine ⟨hcont, rfl, rfl, rfl, h2.symm, ?_⟩
            show getNode (setNode _ p.node deadNode) p.node = deadNode
            refine getNode_setNode_self _ ?_
            rw [heapKeys_setNode, heapKeys_setNode]
            exact hkmem

/-- Python callers pass `first()` / `last()` results straight into the
position-consuming operations; `None` is not a Position. -/
def argOf : Option Position → Arg
  | none => Arg.nonPosition
  | some p => Arg.position p

/-! ### The claims -/

/-- C1: for every list and every Position `p` of it, once `delete(p)`
succeeds, any subsequent call of `replace(p, x)`, `before(p)`,
`after(p)`, `add_before(p, e)`, `add_after(p, e)` or `delete(p)` on the
list raises the `StalePosition` error (`'p is no longer valid'`):
`delete` clears the node's links and `_validate` detects the cleared
next-link marker. -/
theorem claim1_stale_after_delete {L L2 : PositionalList} {p : Position} {v : Option Int}
    (h : L.delete (Arg.position p) = (L2, Except.ok v)) (x : Int) :
    L2.validate (Arg.position p) = Except.error stalePositionErr ∧
    L2.replace (Arg.position p) x = (L2, Except.error stalePositionErr) ∧
    L2.before (Arg.position p) = Except.error stalePositionErr ∧
    L2.after (Arg.position p) = Except.error stalePositionErr ∧
    L2.addBefore (Arg.position p) x = (L2, Except.error stalePositionErr) ∧
    L2.addAfter (Arg.position p) x = (L2, Except.error stalePositionErr) ∧
    L2.delete (Arg.position p) = (L2, Except.error stalePositionErr) := by
  obtain ⟨hcont, hlid, _, _, _, hdead⟩ := delete_ok_facts h
  have hval : L2.validate (Arg.position p) = Except.error stalePositionErr := by
    simp only [PositionalList.validate]
    rw [if_pos (by rw [hcont, hlid]), hdead]
    simp [deadNode]
  obtain ⟨hd, hr, hb, ha, hab, haa⟩ := ops_error hval x
  exact ⟨hval, hr, hb, ha, hab, haa, hd⟩

/-- C1 witness: deleting the only element of a one-element list
succeeds, and revalidating the deleted position reports staleness. -/
theorem claim1_witness :
    (((PositionalList.empty 0).addFirst 5).1.delete (Arg.position ⟨0, 2⟩)).2 =
      Except.ok (some 5) ∧
    (PositionalList.mk 0 [(2, ⟨none, none, none⟩), (0, ⟨none, none, some 1⟩),
        (1, ⟨none, some 0, none⟩)] 0 1 3 0).validate (Arg.position ⟨0, 2⟩) =
      Except.error stalePositionErr := by
  refine ⟨by rfl, ?_⟩
  exact (@claim1_stale_after_delete (((PositionalList.empty 0).addFirst 5).1)
    (PositionalList.mk 0 [(2, ⟨none, none, none⟩), (0, ⟨none, none, some 1⟩),
      (1, ⟨none, some 0, none⟩)] 0 1 3 0) ⟨0, 2⟩ (some 5) (by rfl) 0).1

/-- C2: a successful `replace(p, x)` returns the element previously
stored at `p`, leaves `p` valid, leaves the size unchanged, and leaves
the identity, the sentinels, every other heap entry, and the links of
`p`'s own node unchanged — only the element slot of `p`'s node is
overwritten. -/
theorem claim2_replace_frame {L L2 : PositionalList} {p : Position} {old : Option Int}
    (x : Int) (h : L.replace (Arg.position p) x = (L2, Except.ok old)) :
    old = PositionalList.posElement L p ∧
    L2.validate (Arg.position p) = Except.ok p.node ∧
    L2.size = L.size ∧ L2.listId = L.listId ∧ L2.header = L.header ∧
    L2.trailer = L.trailer ∧ L2.nextId = L.nextId ∧
    (∀ j, j ≠ p.node → findNode L2.heap j = findNode L.heap j) ∧
    (getNode L2.heap p.node).prev = (getNode L.heap p.node).prev ∧
    (getNode L2.heap p.node).next = (getNode L.heap p.node).next ∧
    PositionalList.posElement L2 p = some x := by
  cases hv : L.validate (Arg.position p) with
  | error e =>
      have hcalc : L.replace (Arg.position p) x = (L, Except.error e) := by
        simp only [PositionalList.replace, hv]
      rw [hcalc] at h
      simp at h
  | ok nid =>
      obtain ⟨hnid, hcont, hnext⟩ := validate_pos_ok hv
      subst hnid
      have hkmem : p.node ∈ heapKeys L.heap := mem_keys_of_next_ne_none hnext
      have hcalc : L.replace (Arg.position p) x =
          ({ L with
              heap :=
                setNode L.heap p.node ({ getNode L.heap p.node with element := some x }) },
            Except.ok (getNode L.heap p.node).element) := by
        simp only [PositionalList.replace, hv]
      rw [hcalc] at h
      rw [Prod.mk.injEq] at h
      obtain ⟨h1, h2⟩ := h
      subst h1
      rw [Except.ok.injEq] at h2
      have hgself : getNode (setNode L.heap p.node
          { getNode L.heap p.node with element := some x }) p.node =
          { getNode L.heap p.node with element := some x } :=
        getNode_setNode_self _ hkmem
      have hstale2 : ¬ (getNode (setNode L.heap p.node
          { getNode L.heap p.node with element := some x }) p.node).next = none := by
        rw [hgself]
        exact hnext
      refine ⟨by rw [PositionalList.posElement]; exact h2.symm, ?_, rfl, rfl, rfl, rfl, rfl,
        ?_, ?_, ?_, ?_⟩
      · simp only [PositionalList.validate]
        rw [if_pos hcont, if_neg hstale2]
      · intro j hj
        exact findNode_setNode_ne _ hj
      · dsimp only
        rw [hgself]
      · dsimp only
        rw [hgself]
      · dsimp only [PositionalList.posElement]
        rw [hgself]

/-- C2 witness: replacing the element of a one-element list returns the
prior element, keeps the position valid and keeps the size. -/
theorem claim2_witness :
    ((PositionalList.empty 0).addFirst 5).1.replace (Arg.position ⟨0, 2⟩) 9 =
      (PositionalList.mk 0 [(2, ⟨some 9, some 0, some 1⟩), (0, ⟨none, none, some 2⟩),
        (1, ⟨none, some 2, none⟩)] 0 1 3 1, Except.ok (some 5)) ∧
    (PositionalList.mk 0 [(2, ⟨some 9, some 0, some 1⟩), (0, ⟨none, none, some 2⟩),
        (1, ⟨none, some 2, none⟩)] 0 1 3 1).validate (Arg.position ⟨0, 2⟩) =
      Except.ok 2 ∧
    (PositionalList.mk 0 [(2, ⟨some 9, some 0, some 1⟩), (0, ⟨none, none, some 2⟩),
        (1, ⟨none, some 2, none⟩)] 0 1 3 1).size =
      ((PositionalList.empty 0).addFirst 5).1.size := by
  refine ⟨by rfl, ?_, ?_⟩
  · exact (@claim2_replace_frame (((PositionalList.empty 0).addFirst 5).1)
      (PositionalList.mk 0 [(2, ⟨some 9, some 0, some 1⟩), (0, ⟨none, none, some 2⟩),
        (1, ⟨none, some 2, none⟩)] 0 1 3 1) ⟨0, 2⟩ (some 5) 9 (by rfl)).2.1
  · exact (@claim2_replace_frame (((PositionalList.empty 0).addFirst 5).1)
      (PositionalList.mk 0 [(2, ⟨some 9, some 0, some 1⟩), (0, ⟨none, none, some 2⟩),
        (1, ⟨none, some 2, none⟩)] 0 1 3 1) ⟨0, 2⟩ (some 5) 9 (by rfl)).2.2.1

/-- C3: whenever `_validate` rejects an argument (non-Position, wrong
container, or stale), every position-consuming operation raises exactly
that error and returns the list unmodified; in particular a Position of
a different container fed to `delete` raises the wrong-container error
and mutates nothing. -/
theorem claim3_error_no_mutation {L : PositionalList} {a : Arg} {err : Exn}
    (h : L.validate a = Except.error err) (x : Int) :
    L.delete a = (L, Except.error err) ∧
    L.replace a x = (L, Except.error err) ∧
    L.before a = Except.error err ∧
    L.after a = Except.error err ∧
    L.addBefore a x = (L, Except.error err) ∧
    L.addAfter a x = (L, Except.error err) ∧
    (∀ q : Position, q.container ≠ L.listId →
      L.delete (Arg.position q) = (L, Except.error invalidPositionErr)) := by
  obtain ⟨hd, hr, hb, ha, hab, haa⟩ := ops_error h x
  refine ⟨hd, hr, hb, ha, hab, haa, ?_⟩
  intro q hq
  have hval : L.validate (Arg.position q) = Except.error invalidPositionErr := by
    simp only [PositionalList.validate]
    rw [if_neg hq]
  exact (ops_error hval x).1

/-- C3 witness: a non-Position argument and a Position of a different
container both fail and leave the list unchanged. -/
theorem claim3_witness :
    (PositionalList.empty 0).delete Arg.nonPosition =
      (PositionalList.empty 0, Except.error wrongPositionTypeErr) ∧
    (PositionalList.empty 0).delete (Arg.position ⟨7, 2⟩) =
      (PositionalList.empty 0, Except.error invalidPositionErr) := by
  refine ⟨?_, ?_⟩
  · exact (@claim3_error_no_mutation (PositionalList.empty 0) Arg.nonPosition
      wrongPositionTypeErr (by rfl) 0).1
  · exact (@claim3_error_no_mutation (PositionalList.empty 0) Arg.nonPosition
      wrongPositionTypeErr (by rfl) 0).2.2.2.2.2.2 ⟨7, 2⟩ (by decide)

/-- C4: the three precondition violations are reported by `_validate` as
three pairwise distinct raised errors, so a caller can tell each failure
from the other two. -/
theorem claim4_distinct_error_kinds (L : PositionalList) (p : Position) :
    L.validate Arg.nonPosition = Except.error wrongPositionTypeErr ∧
    (p.container ≠ L.listId →
      L.validate (Arg.position p) = Except.error invalidPositionErr) ∧
    (p.container = L.listId → (getNode L.heap p.node).next = none →
      L.validate (Arg.position p) = Except.error stalePositionErr) ∧
    wrongPositionTypeErr ≠ invalidPositionErr ∧
    wrongPositionTypeErr ≠ stalePositionErr ∧
    invalidPositionErr ≠ stalePositionErr := by
  refine ⟨rfl, ?_, ?_, by decide, by decide, by decide⟩
  · intro hq
    simp only [PositionalList.validate]
    rw [if_neg hq]
  · intro hc hn
    simp only [PositionalList.validate]
    rw [if_pos hc, if_pos hn]

/-- C4 witness: the three failures at concrete inputs. -/
theorem claim4_witness :
    (PositionalList.empty 0).validate Arg.nonPosition =
      Except.error wrongPositionTypeErr ∧
    (PositionalList.empty 0).validate (Arg.position ⟨7, 2⟩) =
      Except.error invalidPositionErr ∧
    (PositionalList.empty 0).validate (Arg.position ⟨0, 99⟩) =
      Except.error stalePositionErr ∧
    wrongPositionTypeErr ≠ invalidPositionErr :=
  ⟨(claim4_distinct_error_kinds (PositionalList.empty 0) ⟨7, 2⟩).1,
    (claim4_distinct_error_kinds (PositionalList.empty 0) ⟨7, 2⟩).2.1 (by decide),
    (claim4_distinct_error_kinds (PositionalList.empty 0) ⟨0, 99⟩).2.2.1 (by decide) (by rfl),
    (claim4_distinct_error_kinds (PositionalList.empty 0) ⟨7, 2⟩).2.2.2.1⟩

/-- Raised errors are compared by injectivity of the error constructor. -/
theorem error_eq_of_error_eq {e1 e2 : Exn}
    (h : (Except.error e1 : Except Exn (Option Int)) = Except.error e2) : e1 = e2 := by
  injection h

/-- C5 counterexample: on the empty list the read accessors `first` and
`last` return the null no-position result; no `Empty`-kind error is
raised (their faithful embedding has no error outcome at all). -/
theorem claim5_counterexample :
    (PositionalList.empty 0).first = none ∧ (PositionalList.empty 0).last = none :=
  ⟨rfl, rfl⟩

/-- C5 (amended): `first()` and `last()` on a list with zero live
elements return the null no-position result rather than raising an
`Empty`-kind error. -/
theorem claim5_empty_reads_null {L : PositionalList} {ids : List NodeId}
    (hw : WF L ids) (hsz : L.size = 0) : L.first = none ∧ L.last = none := by
  have hids : ids = [] := by
    have hlen := hw.sizeEq
    rw [hsz] at hlen
    exact List.length_eq_zero.mp hlen.symm
  subst hids
  exact ⟨wf_first_nil hw, wf_last_nil hw⟩

/-- C5 witness: the empty list with a different identity. -/
theorem claim5_witness :
    (PositionalList.empty 1).first = none ∧ (PositionalList.empty 1).last = none :=
  claim5_empty_reads_null (wf_empty 1) rfl

/-- C6: `first()` (and `last()`) is null exactly when the list is empty,
and immediately after `add_first(e)` the first position exists and its
`element()` is `e`. -/
theorem claim6_first_last_null_iff {L : PositionalList} {ids : List NodeId}
    (hw : WF L ids) (e : Int) :
    (L.first = none ↔ L.size = 0) ∧ (L.last = none ↔ L.size = 0) ∧
    ((L.addFirst e).2 ≠ none ∧
      ∃ q, (L.addFirst e).1.first = some q ∧
        PositionalList.posElement (L.addFirst e).1 q = some e) := by
  obtain ⟨hsnd, _, _, _, hfst, hel⟩ := wf_addFirst hw e
  refine ⟨⟨?_, ?_⟩, ⟨?_, ?_⟩, ?_, ⟨⟨L.listId, L.nextId⟩, hfst, hel⟩⟩
  · intro hf
    cases ids with
    | nil => exact hw.sizeEq
    | cons i t =>
        rw [wf_first_cons hw] at hf
        exact absurd hf (by simp)
  · intro hsz
    have hids : ids = [] := by
      have hlen := hw.sizeEq
      rw [hsz] at hlen
      exact List.length_eq_zero.mp hlen.symm
    subst hids
    exact wf_first_nil hw
  · intro hf
    rcases List.eq_nil_or_concat ids with hnil | ⟨S, pp, hcc⟩
    · subst hnil
      exact hw.sizeEq
    · have hids : ids = S ++ [pp] := by rw [hcc, List.concat_eq_append]
      subst hids
      rw [wf_last_concat hw] at hf
      exact absurd hf (by simp)
  · intro hsz
    have hids : ids = [] := by
      have hlen := hw.sizeEq
      rw [hsz] at hlen
      exact List.length_eq_zero.mp hlen.symm
    subst hids
    exact wf_last_nil hw
  · rw [hsnd]
    simp

/-- C6 witness: after `add_first 7` on the empty list the first position
stores 7. -/
theorem claim6_witness :
    ((PositionalList.empty 0).addFirst 7).2 ≠ none ∧
    ∃ q, ((PositionalList.empty 0).addFirst 7).1.first = some q ∧
      PositionalList.posElement ((PositionalList.empty 0).addFirst 7).1 q = some 7 :=
  (claim6_first_last_null_iff (wf_empty 0) 7).2.2

/-- C7: starting from the empty list, after any successful sequence of
`add_first`/`add_last` operations interleaved with deletes of issued
(live) positions, `size()` equals adds − deletes; moreover the stored
count always equals the number of nodes strictly between the two
sentinels (the live chain of the preserved well-formedness invariant). -/
theorem claim7_size_adds_minus_deletes (lid : Nat) (ops : List ListOp)
    (L2 : PositionalList) (ids2 : List NodeId)
    (h : runOps (PositionalList.empty lid) [] ops = some (L2, ids2)) :
    L2.size + countDels ops = countAdds ops ∧
    L2.size = countAdds ops - countDels ops ∧
    WF L2 ids2 ∧ L2.size = ids2.length := by
  have hs := runOps_spec ops (PositionalList.empty lid) [] L2 ids2 (wf_empty lid) h
  have h2 := hs.2
  have h0 : (PositionalList.empty lid).size = 0 := rfl
  rw [h0] at h2
  exact ⟨by omega, by omega, hs.1, hs.1.sizeEq⟩

/-- C7 witness: add 1 at the front, add 2 at the back, delete the first
node; the final size is 2 − 1 = 1. -/
theorem claim7_witness :
    runOps (PositionalList.empty 0) [] [ListOp.addF 1, ListOp.addL 2, ListOp.del 2] =
      some (PositionalList.mk 0 [(3, ⟨some 2, some 0, some 1⟩), (2, ⟨none, none, none⟩),
        (0, ⟨none, none, some 3⟩), (1, ⟨none, some 3, none⟩)] 0 1 4 1, [3]) ∧
    (PositionalList.mk 0 [(3, ⟨some 2, some 0, some 1⟩), (2, ⟨none, none, none⟩),
        (0, ⟨none, none, some 3⟩), (1, ⟨none, some 3, none⟩)] 0 1 4 1).size +
      countDels [ListOp.addF 1, ListOp.addL 2, ListOp.del 2] =
      countAdds [ListOp.addF 1, ListOp.addL 2, ListOp.del 2] := by
  refine ⟨by rfl, ?_⟩
  exact (claim7_size_adds_minus_deletes 0 [ListOp.addF 1, ListOp.addL 2, ListOp.del 2]
    (PositionalList.mk 0 [(3, ⟨some 2, some 0, some 1⟩), (2, ⟨none, none, none⟩),
      (0, ⟨none, none, some 3⟩), (1, ⟨none, some 3, none⟩)] 0 1 4 1) [3] (by rfl)).1

/-- C8 counterexample: on the empty list `first()` is null, and
`before(first())` raises the wrong-position-type error instead of
returning null as the claim states for every length. -/
theorem claim8_counterexample :
    (PositionalList.empty 0).first = none ∧
    (PositionalList.empty 0).before (argOf (PositionalList.empty 0).first) =
      Except.error wrongPositionTypeErr :=
  ⟨rfl, rfl⟩

/-- C8 (amended): on every nonempty list `before(first())` and
`after(last())` return null; on the empty list `first()`/`last()` are
null and passing null to `before`/`after` raises `WrongPositionType`. -/
theorem claim8_boundary_null {L : PositionalList} {ids : List NodeId}
    (hw : WF L ids) (hne : ids ≠ []) :
    L.before (argOf L.first) = Except.ok none ∧
    L.after (argOf L.last) = Except.ok none := by
  constructor
  · cases ids with
    | nil => exact absurd rfl hne
    | cons i t =>
        have hf : L.first = some ⟨L.listId, i⟩ := wf_first_cons hw
        rw [hf]
        show L.before (Arg.position ⟨L.listId, i⟩) = Except.ok none
        have hh := linkedB_head
          (show linkedB L.heap (L.header :: i :: (t ++ [L.trailer])) = true from hw.chain)
        obtain ⟨su, R, hSR⟩ := append_single_eq_cons t L.trailer
        have hrest := hh.2.2
        rw [hSR] at hrest
        have hnexti : (getNode L.heap i).next = some su := (linkedB_head hrest).1
        have hval : L.validate (Arg.position ⟨L.listId, i⟩) = Except.ok i := by
          simp [PositionalList.validate, hnexti]
        simp only [PositionalList.before, hval]
        rw [hh.2.1]
        simp [PositionalList.makePositionOpt, PositionalList.makePosition]
  · rcases List.eq_nil_or_concat ids with hnil | ⟨S, pp, hcc⟩
    · exact absurd hnil hne
    · have hids : ids = S ++ [pp] := by rw [hcc, List.concat_eq_append]
      subst hids
      have hl : L.last = some ⟨L.listId, pp⟩ := wf_last_concat hw
      rw [hl]
      show L.after (Arg.position ⟨L.listId, pp⟩) = Except.ok none
      have htp := wf_trailer_prev_concat hw
      have hval : L.validate (Arg.position ⟨L.listId, pp⟩) = Except.ok pp := by
        simp [PositionalList.validate, htp.2]
      simp only [PositionalList.after, hval]
      rw [htp.2]
      simp [PositionalList.makePositionOpt, PositionalList.makePosition]

/-- C8 witness: the boundary navigations on a one-element list. -/
theorem claim8_witness :
    ((PositionalList.empty 0).addFirst 5).1.before
        (argOf ((PositionalList.empty 0).addFirst 5).1.first) = Except.ok none ∧
    ((PositionalList.empty 0).addFirst 5).1.after
        (argOf ((PositionalList.empty 0).addFirst 5).1.last) = Except.ok none :=
  claim8_boundary_null ((wf_addFirst (wf_empty 0) 5).2.1) (by simp)

/-- C9: after a successful `delete(p)`, reading `p.element()` directly
raises no error (the read is total and unvalidated) and returns the
cleared marker `None` rather than the element formerly stored at `p`. -/
theorem claim9_element_after_delete {L L2 : PositionalList} {p : Position} {v : Option Int}
    (h : L.delete (Arg.position p) = (L2, Except.ok v)) :
    PositionalList.posElement L2 p = none := by
  obtain ⟨_, _, _, _, _, hdead⟩ := delete_ok_facts h
  rw [PositionalList.posElement, hdead]
  rfl

/-- C9 witness: the deleted node's element slot reads as `None`. -/
theorem claim9_witness :
    PositionalList.posElement (PositionalList.mk 0 [(2, ⟨none, none, none⟩),
      (0, ⟨none, none, some 1⟩), (1, ⟨none, some 0, none⟩)] 0 1 3 0) ⟨0, 2⟩ = none :=
  @claim9_element_after_delete (((PositionalList.empty 0).addFirst 5).1)
    (PositionalList.mk 0 [(2, ⟨none, none, none⟩), (0, ⟨none, none, some 1⟩),
      (1, ⟨none, some 0, none⟩)] 0 1 3 0) ⟨0, 2⟩ (some 5) (by rfl)

/-- C10: `delete` never raises the `Empty` error: for every argument —
a non-Position, a Position of another container, a stale Position, or a
Position issued by this list for a live node — the defensive empty-list
check in `_delete_node` is unreachable, and any failure is one of the
three position errors.  (`hiss` states that positions of this container
that pass the staleness check were issued for live nodes, which is how
the list hands out positions.) -/
theorem claim10_delete_never_empty {L : PositionalList} {ids : List NodeId}
    (hw : WF L ids) (a : Arg)
    (hiss : ∀ p : Position, a = Arg.position p → p.container = L.listId →
      (getNode L.heap p.node).next ≠ none → p.node ∈ ids) :
    (L.delete a).2 ≠ Except.error emptyErr ∧
    ∀ err, (L.delete a).2 = Except.error err →
      err = wrongPositionTypeErr ∨ err = invalidPositionErr ∨ err = stalePositionErr := by
  cases a with
  | nonPosition =>
      have hval : L.validate Arg.nonPosition = Except.error wrongPositionTypeErr := rfl
      have hd := (ops_error hval 0).1
      rw [hd]
      constructor
      · intro hcon
        exact absurd (error_eq_of_error_eq hcon) (by decide)
      · intro err herr
        exact Or.inl (error_eq_of_error_eq herr).symm
  | position p =>
      obtain ⟨pc, pn⟩ := p
      by_cases hc : pc = L.listId
      · subst hc
        by_cases hn : (getNode L.heap pn).next = none
        · have hval : L.validate (Arg.position ⟨L.listId, pn⟩) =
              Except.error stalePositionErr := by
            simp [PositionalList.validate, hn]
          have hd := (ops_error hval 0).1
          rw [hd]
          constructor
          · intro hcon
            exact absurd (error_eq_of_error_eq hcon) (by decide)
          · intro err herr
            exact Or.inr (Or.inr (error_eq_of_error_eq herr).symm)
        · have hmem : pn ∈ ids := hiss ⟨L.listId, pn⟩ rfl rfl hn
          obtain ⟨l1, l2, hsplit⟩ := List.append_of_mem hmem
          have hw2 : WF L (l1 ++ pn :: l2) := hsplit ▸ hw
          have hok := (wf_delete hw2).1
          rw [hok]
          constructor
          · intro hcon
            exact Except.noConfusion hcon
          · intro err herr
            exact Except.noConfusion herr
      · have hval : L.validate (Arg.position ⟨pc, pn⟩) = Except.error invalidPositionErr := by
          simp only [PositionalList.validate]
          rw [if_neg hc]
        have hd := (ops_error hval 0).1
        rw [hd]
        constructor
        · intro hcon
          exact absurd (error_eq_of_error_eq hcon) (by decide)
        · intro err herr
          exact Or.inr (Or.inl (error_eq_of_error_eq herr).symm)

/-- C10 witness: deleting the only live position of a one-element list
does not raise `Empty`. -/
theorem claim10_witness :
    ((((PositionalList.empty 0).addFirst 5).1).delete (Arg.position ⟨0, 2⟩)).2 ≠
      Except.error emptyErr :=
  (claim10_delete_never_empty ((wf_addFirst (wf_empty 0) 5).2.1) (Arg.position ⟨0, 2⟩)
    (fun p hp _ _ => by
      injection hp with hpp
      rw [← hpp]
      exact List.mem_cons_self _ _)).1
